import Mathlib

/-!
Verification of the Telegram media scheduler bot (`src/index.js`).

The JavaScript program keeps three collections (`videos`, `images`,
`scheduleData`) mirrored to JSON files, an in-memory map `schedules` from
chat id to a running timer object, a map `sentMediaTracking` from chat id
to the set of already-delivered positions, and the selection routine
`getNextUnsentMedia`.  This file shallowly embeds those data structures and
operations: JavaScript objects used as string keyed dictionaries become
association lists, `Set` becomes `Finset ℕ`, `Math.floor(Math.random()*n)`
becomes an explicit `choice % n` argument, timer objects become job records
with a fresh numeric id plus a list of cancelled ids, and the JSON files
become `...Disk` fields of the state.
-/

namespace Botxx

/-! ### Association lists (JavaScript objects used as dictionaries) -/

variable {κ : Type} {β : Type} [DecidableEq κ]

/-- Lookup of `obj[k]`; `none` models the key being absent / `undefined`. -/
def lookupA : List (κ × β) → κ → Option β
  | [], _ => none
  | p :: t, k => if p.1 = k then some p.2 else lookupA t k

/-- Effect of `delete obj[k]`: all pairs with key `k` are removed
(JavaScript object keys are unique, so this matches deleting the entry). -/
def eraseA : List (κ × β) → κ → List (κ × β)
  | [], _ => []
  | p :: t, k => if p.1 = k then eraseA t k else p :: eraseA t k

/-- Effect of `obj[k] = v`. Only `lookupA` observes the list, so placing the
fresh binding in front is an adequate model of the assignment. -/
def insertA (l : List (κ × β)) (k : κ) (v : β) : List (κ × β) :=
  (k, v) :: eraseA l k

theorem lookupA_eraseA_self (l : List (κ × β)) (k : κ) :
    lookupA (eraseA l k) k = none := by
  induction l with
  | nil => rfl
  | cons p t ih =>
      by_cases h : p.1 = k
      · simpa [eraseA, h] using ih
      · simpa [eraseA, lookupA, h] using ih

theorem lookupA_eraseA_ne (l : List (κ × β)) {k k' : κ} (h : k' ≠ k) :
    lookupA (eraseA l k) k' = lookupA l k' := by
  induction l with
  | nil => rfl
  | cons p t ih =>
      by_cases hp : p.1 = k
      · have hne : p.1 ≠ k' := fun hc => h (hp.symm.trans hc).symm
        simp [eraseA, lookupA, hp, hne, ih, Ne.symm h]
      · simp only [eraseA, hp, if_false, lookupA]
        by_cases hk' : p.1 = k'
        · simp [hk']
        · simp [hk', ih]

theorem lookupA_insertA_self (l : List (κ × β)) (k : κ) (v : β) :
    lookupA (insertA l k v) k = some v := by
  simp [insertA, lookupA]

theorem lookupA_insertA_ne (l : List (κ × β)) {k k' : κ} (v : β) (h : k' ≠ k) :
    lookupA (insertA l k v) k' = lookupA l k' := by
  have hne : k ≠ k' := fun hc => h hc.symm
  simp [insertA, lookupA, hne, lookupA_eraseA_ne l h]

/-! ### Index-aware filtering

`mediaList.filter((media, index) => p(index))`-style code is modelled by
`dropIdxWhen p k l`, which walks the list dropping elements whose position
(counted from `k`) satisfies `p`. -/

/-- Keep the elements of `l` whose position, counted from `k`, does not
satisfy `p`. -/
def dropIdxWhen {α : Type} (p : ℕ → Bool) : ℕ → List α → List α
  | _, [] => []
  | k, a :: as => if p k then dropIdxWhen p (k + 1) as else a :: dropIdxWhen p (k + 1) as

theorem dropIdxWhen_eq_nil_iff {α : Type} (p : ℕ → Bool) :
    ∀ (l : List α) (k : ℕ),
      dropIdxWhen p k l = [] ↔ ∀ i, i < l.length → p (k + i) = true := by
  intro l
  induction l with
  | nil => intro k; simp [dropIdxWhen]
  | cons a as ih =>
      intro k
      cases hpk : p k with
      | true =>
          simp only [dropIdxWhen, hpk, if_true]
          rw [ih (k + 1)]
          constructor
          · intro hall i hi
            match i with
            | 0 => simpa using hpk
            | j + 1 =>
                have h2 := hall j (Nat.lt_of_succ_lt_succ hi)
                have he : k + 1 + j = k + (j + 1) := by omega
                rwa [he] at h2
          · intro hall i hi
            have h2 := hall (i + 1) (Nat.succ_lt_succ hi)
            have he : k + (i + 1) = k + 1 + i := by omega
            rwa [he] at h2
      | false =>
          simp only [dropIdxWhen, hpk, if_false]
          constructor
          · intro hc; exact absurd hc (List.cons_ne_nil _ _)
          · intro hall
            have h2 := hall 0 (by simp)
            rw [Nat.add_zero] at h2
            exact absurd h2 (by simp [hpk])

theorem mem_dropIdxWhen {α : Type} (p : ℕ → Bool) :
    ∀ (l : List α) (k : ℕ) (x : α), x ∈ dropIdxWhen p k l →
      ∃ i, i < l.length ∧ p (k + i) = false ∧ l.get? i = some x := by
  intro l
  induction l with
  | nil => intro k x hx; simp [dropIdxWhen] at hx
  | cons a as ih =>
      intro k x hx
      cases hpk : p k with
      | true =>
          rw [dropIdxWhen, if_pos (by simp [hpk])] at hx
          obtain ⟨i, hi, hp, hg⟩ := ih (k + 1) x hx
          refine ⟨i + 1, Nat.succ_lt_succ hi, ?_, by simpa using hg⟩
          have he : k + (i + 1) = k + 1 + i := by omega
          rwa [he]
      | false =>
          rw [dropIdxWhen, if_neg (by simp [hpk])] at hx
          rcases List.mem_cons.mp hx with rfl | hx'
          · exact ⟨0, by simp, by simpa using hpk, by simp⟩
          · obtain ⟨i, hi, hp, hg⟩ := ih (k + 1) x hx'
            refine ⟨i + 1, Nat.succ_lt_succ hi, ?_, by simpa using hg⟩
            have he : k + (i + 1) = k + 1 + i := by omega
            rwa [he]

/-! ### The non-repeating selection routine (`getNextUnsentMedia`) -/

/-- Shallow embedding of `getNextUnsentMedia(chatId, mediaList)` acting on
one chat's tracking set.  `choice` stands for the value drawn by
`Math.random()` (interpreted modulo the candidate count), `tracker` is
`sentMediaTracking[chatId]` (already initialised to the empty set when
absent), and the result pairs the returned media item (`none` models
`undefined`) with the tracking set left behind. -/
def getNextUnsentMedia {α : Type} [DecidableEq α] (choice : ℕ) (tracker : Finset ℕ)
    (mediaList : List α) : Option α × Finset ℕ :=
  let unsentMedia := dropIdxWhen (fun i => decide (i ∈ tracker)) 0 mediaList
  if h : unsentMedia.length = 0 then
    (mediaList.get? (choice % mediaList.length), ∅)
  else
    let selectedMedia := unsentMedia.get
      ⟨choice % unsentMedia.length, Nat.mod_lt _ (Nat.pos_of_ne_zero h)⟩
    (some selectedMedia, insert (List.indexOf selectedMedia mediaList) tracker)

/-- Iterating `getNextUnsentMedia` over a list of random draws, collecting
the returned items. -/
def runDraws {α : Type} [DecidableEq α] (L : List α) :
    List ℕ → Finset ℕ → List (Option α) × Finset ℕ
  | [], t => ([], t)
  | c :: cs, t =>
    let dr := getNextUnsentMedia c t L
    let rest := runDraws L cs dr.2
    (dr.1 :: rest.1, rest.2)

/-! ### Data model -/

/-- The `type` field of a stored media entry: `'video'` or `'image'`. -/
inductive MediaKind : Type
  | video
  | image
deriving DecidableEq, Repr

/-- The media selector of a schedule: `'videos'`, `'images'` or `'mix'`. -/
inductive MediaType : Type
  | videos
  | images
  | mix
deriving DecidableEq, Repr

/-- One element of the `videos` / `images` arrays:
`{ id, type, caption, addedAt }`.  Timestamps are abstracted to `ℕ`. -/
structure MediaEntry : Type where
  id : String
  type : MediaKind
  caption : String
  addedAt : ℕ
deriving DecidableEq, Repr

/-- One value of the persisted `scheduleData` object:
`{ interval, mediaType, createdAt }`. -/
structure ScheduleEntry : Type where
  interval : ℕ
  mediaType : MediaType
  createdAt : ℕ
deriving DecidableEq, Repr

/-- The configuration a `node-schedule` job object was armed with. -/
structure JobSpec : Type where
  chatId : String
  interval : ℕ
  mediaType : MediaType
deriving DecidableEq, Repr

/-- The program state.  `videos`, `images`, `scheduleData`, `schedules`
(chat id to timer handle) and `sentMediaTracking` are the five module-level
mutable variables; the `...Disk` fields are the JSON files.  Timer objects
are modelled by numeric ids: `jobs` records every job ever created with its
configuration, `cancelled` the ids whose `.cancel()` was called, and
`nextId` supplies fresh ids. -/
structure BotState : Type where
  videos : List MediaEntry
  images : List MediaEntry
  videosDisk : List MediaEntry
  imagesDisk : List MediaEntry
  schedules : List (String × ℕ)
  scheduleData : List (String × ScheduleEntry)
  schedulesDisk : List (String × ScheduleEntry)
  jobs : List (ℕ × JobSpec)
  cancelled : List ℕ
  nextId : ℕ
  tracker : List (String × Finset ℕ)
deriving DecidableEq

/-- The state right after the data files have been created empty. -/
def initState : BotState :=
  ⟨[], [], [], [], [], [], [], [], [], 0, []⟩

/-- Reply of the `/stop` command. -/
inductive StopReply : Type
  | stopped
  | nothingToCancel
deriving DecidableEq, Repr

/-- Reply of the media-adding handlers. -/
inductive AddReply : Type
  | ok
  | duplicate
deriving DecidableEq, Repr

/-! ### Job scheduler operations -/

/-- Shallow embedding of `createScheduledJob(chatId, interval, mediaType)`:
cancel the timer currently held for this chat (if any), arm a fresh one,
store the handle in `schedules`, store `{ interval, mediaType, createdAt }`
in `scheduleData`, and persist `scheduleData` (`saveScheduleData`).
`now` stands for `new Date().toISOString()`. -/
def createScheduledJob (chatId : String) (interval : ℕ) (mediaType : MediaType)
    (now : ℕ) (s : BotState) : BotState :=
  let s1 : BotState :=
    match lookupA s.schedules chatId with
    | some j => { s with cancelled := j :: s.cancelled }
    | none => s
  let jid := s1.nextId
  let sd := insertA s1.scheduleData chatId ⟨interval, mediaType, now⟩
  { s1 with
    jobs := (jid, ⟨chatId, interval, mediaType⟩) :: s1.jobs
    nextId := jid + 1
    schedules := insertA s1.schedules chatId jid
    scheduleData := sd
    schedulesDisk := sd }

/-- Shallow embedding of the `/stop` command body (after the private-chat
guard): cancel and drop the in-memory timer when one exists, otherwise fall
back to the persisted entry, otherwise report that nothing was scheduled. -/
def stopCommand (chatId : String) (s : BotState) : BotState × StopReply :=
  match lookupA s.schedules chatId with
  | some j =>
    let sd := eraseA s.scheduleData chatId
    ({ s with
        cancelled := j :: s.cancelled
        schedules := eraseA s.schedules chatId
        scheduleData := sd
        schedulesDisk := sd
        tracker := eraseA s.tracker chatId }, StopReply.stopped)
  | none =>
    match lookupA s.scheduleData chatId with
    | some _ =>
      let sd := eraseA s.scheduleData chatId
      ({ s with
          scheduleData := sd
          schedulesDisk := sd
          tracker := eraseA s.tracker chatId }, StopReply.stopped)
    | none => (s, StopReply.nothingToCancel)

/-- Shallow embedding of the startup loop
`for (const chatId in scheduleData) createScheduledJob(...)`, starting from
the freshly loaded state (no timers, registry read from disk). -/
def startupRearm (entries : List (String × ScheduleEntry)) (now : ℕ) : BotState :=
  entries.foldl
    (fun s ce => createScheduledJob ce.1 ce.2.interval ce.2.mediaType now s)
    { initState with scheduleData := entries, schedulesDisk := entries }

/-! ### Tick callback -/

/-- Candidate list resolution inside the tick callback (`switch(mediaType)`). -/
def resolveMedia (mediaType : MediaType) (videos images : List MediaEntry) :
    List MediaEntry :=
  match mediaType with
  | MediaType.videos => videos
  | MediaType.images => images
  | MediaType.mix => videos ++ images

/-- The tracking set of a chat, initialised to empty when absent
(`if (!sentMediaTracking[chatId]) sentMediaTracking[chatId] = new Set()`). -/
def trackerOf (s : BotState) (chatId : String) : Finset ℕ :=
  (lookupA s.tracker chatId).getD ∅

/-- Shallow embedding of one execution of the timer callback armed by
`createScheduledJob`: resolve the candidate list, and only when it is
non-empty draw an item via `getNextUnsentMedia` and dispatch it.  The
second component is the media item handed to the transport (`none` when
nothing was dispatched). -/
def onTick (choice : ℕ) (chatId : String) (mediaType : MediaType) (s : BotState) :
    BotState × Option MediaEntry :=
  let mediaToSend := resolveMedia mediaType s.videos s.images
  if 0 < mediaToSend.length then
    let dr := getNextUnsentMedia choice (trackerOf s chatId) mediaToSend
    ({ s with tracker := insertA s.tracker chatId dr.2 }, dr.1)
  else
    (s, none)

/-- Job ids of the not-yet-cancelled timers armed for `c`. -/
def activeFor (s : BotState) (c : String) : List ℕ :=
  (s.jobs.filter (fun p => decide (p.2.chatId = c ∧ p.1 ∉ s.cancelled))).map Prod.fst

/-- One period elapsing for recipient `c`: every active timer of `c` fires
once; the dispatched items are collected. -/
def runPeriod (choice : ℕ) (c : String) (s : BotState) :
    BotState × List MediaEntry :=
  (activeFor s c).foldl
    (fun acc jid =>
      match lookupA acc.1.jobs jid with
      | some jb =>
        let r := onTick choice c jb.mediaType acc.1
        (r.1, acc.2 ++ r.2.toList)
      | none => acc)
    (s, [])

/-- `k` timer periods elapsing for recipient `c`. -/
def runPeriods : ℕ → ℕ → String → BotState → BotState × List MediaEntry
  | 0, _, _, s => (s, [])
  | k + 1, choice, c, s =>
    let r1 := runPeriod choice c s
    let r2 := runPeriods k choice c r1.1
    (r2.1, r1.2 ++ r2.2)

/-! ### Media pool operations -/

/-- Shallow embedding of the `bot.on('video')` handler for an admin message
carrying video `videoId` with caption `caption` at time `now`. -/
def addVideoOp (videoId caption : String) (now : ℕ) (s : BotState) :
    BotState × AddReply :=
  if s.videos.any (fun v => v.id = videoId) then
    (s, AddReply.duplicate)
  else
    let vs := s.videos ++ [⟨videoId, MediaKind.video, caption, now⟩]
    ({ s with videos := vs, videosDisk := vs }, AddReply.ok)

/-- Shallow embedding of the `bot.on('photo')` handler. -/
def addImageOp (photoId caption : String) (now : ℕ) (s : BotState) :
    BotState × AddReply :=
  if s.images.any (fun v => v.id = photoId) then
    (s, AddReply.duplicate)
  else
    let is := s.images ++ [⟨photoId, MediaKind.image, caption, now⟩]
    ({ s with images := is, imagesDisk := is }, AddReply.ok)

/-- Descending sort used before multi-deletion
(`indicesToDelete.sort((a, b) => b - a)`). -/
def sortDesc (l : List ℕ) : List ℕ :=
  List.insertionSort (fun a b => b ≤ a) l

/-- Core of the `/deletevideos` (and `/deleteimages`) command on an already
parsed list of 0-based indices: reject the empty pool, reject any
out-of-range index without mutating, otherwise splice the indices out in
descending order, collecting the removed entries (`splice(i, 1)[0]`). -/
def removeManyList {α : Type} (ids : List ℕ) (pool : List α) :
    Option (List α × List (Option α)) :=
  if pool.length = 0 then none
  else if ids.all (fun i => decide (i < pool.length)) then
    some ((sortDesc ids).foldl
      (fun acc i => (acc.1.eraseIdx i, acc.2 ++ [acc.1.get? i])) (pool, []))
  else none

/-- The `/deletevideos` command at the state level: on success the new pool
is persisted once (`saveVideos`). -/
def removeManyVideosOp (ids : List ℕ) (s : BotState) :
    BotState × Option (List (Option MediaEntry)) :=
  match removeManyList ids s.videos with
  | some r => ({ s with videos := r.1, videosDisk := r.1 }, some r.2)
  | none => (s, none)

/-- The `/deleteimages` command at the state level. -/
def removeManyImagesOp (ids : List ℕ) (s : BotState) :
    BotState × Option (List (Option MediaEntry)) :=
  match removeManyList ids s.images with
  | some r => ({ s with images := r.1, imagesDisk := r.1 }, some r.2)
  | none => (s, none)

/-- Shallow embedding of the single-index `/deletevideo_i` command. -/
def removeAtVideosOp (i : ℕ) (s : BotState) : BotState × Option MediaEntry :=
  if i < s.videos.length then
    let vs := s.videos.eraseIdx i
    ({ s with videos := vs, videosDisk := vs }, s.videos.get? i)
  else (s, none)

/-- Shallow embedding of the single-index `/deleteimage_i` command. -/
def removeAtImagesOp (i : ℕ) (s : BotState) : BotState × Option MediaEntry :=
  if i < s.images.length then
    let is := s.images.eraseIdx i
    ({ s with images := is, imagesDisk := is }, s.images.get? i)
  else (s, none)

/-! ### Invariants -/

/-- Freshness of job ids: every created or cancelled id, and every id held
in the `schedules` map, is below `nextId`. -/
def WF (s : BotState) : Prop :=
  (∀ p ∈ s.jobs, p.1 < s.nextId) ∧
  (∀ j ∈ s.cancelled, j < s.nextId) ∧
  (∀ c j, lookupA s.schedules c = some j → j < s.nextId)

/-- Every live timer of chat `c` is the one held in the `schedules` map
(true of every state the program reaches, since arming always records the
handle and replacing always cancels the recorded one). -/
def TrackedInv (s : BotState) (c : String) : Prop :=
  ∀ j ∈ activeFor s c, lookupA s.schedules c = some j

/-- The durable copies coincide with the in-memory collections. -/
def SyncInv (s : BotState) : Prop :=
  s.videosDisk = s.videos ∧ s.imagesDisk = s.images ∧
  s.schedulesDisk = s.scheduleData

/-! ### Behaviour of a single draw -/

theorem getNext_draw {α : Type} [DecidableEq α] (choice : ℕ) (t : Finset ℕ)
    (L : List α) (hnd : L.Nodup) (hex : ∃ i, i < L.length ∧ i ∉ t) :
    ∃ p, p < L.length ∧ p ∉ t ∧
      getNextUnsentMedia choice t L = (L.get? p, insert p t) := by
  have hne : (dropIdxWhen (fun i => decide (i ∈ t)) 0 L).length ≠ 0 := by
    intro h0
    obtain ⟨i, hi, hit⟩ := hex
    have hnil : dropIdxWhen (fun i => decide (i ∈ t)) 0 L = [] :=
      List.length_eq_zero.mp h0
    have h2 := (dropIdxWhen_eq_nil_iff _ L 0).mp hnil i hi
    rw [Nat.zero_add] at h2
    exact hit (by simpa using h2)
  set u := dropIdxWhen (fun i => decide (i ∈ t)) 0 L with hu
  set sel := u.get ⟨choice % u.length, Nat.mod_lt _ (Nat.pos_of_ne_zero hne)⟩ with hselmk
  have hmem : sel ∈ u := List.get_mem u _ _
  obtain ⟨i, hi, hpi, hgi⟩ := mem_dropIdxWhen _ L 0 sel (hu ▸ hmem)
  have hit : i ∉ t := by
    rw [Nat.zero_add] at hpi
    simpa using hpi
  have hmemL : sel ∈ L := List.get?_mem hgi
  have hio : L.get? (List.indexOf sel L) = some sel := List.indexOf_get? hmemL
  have hidx : i = List.indexOf sel L := by
    apply List.getElem?_inj hi hnd
    rw [← List.get?_eq_getElem?, ← List.get?_eq_getElem?, hgi, hio]
  refine ⟨i, hi, hit, ?_⟩
  simp only [getNextUnsentMedia]
  rw [dif_neg
      (show (dropIdxWhen (fun i => decide (i ∈ t)) 0 L).length ≠ 0 from hne),
    Prod.mk.injEq]
  exact ⟨hgi.symm, congrArg (fun j => insert j t) hidx.symm⟩

/-- Running one full cycle worth of draws from tracking state `t` selects
pairwise distinct positions outside `t`. -/
theorem runDraws_cycle {α : Type} [DecidableEq α] (L : List α) (hnd : L.Nodup) :
    ∀ (cs : List ℕ) (t : Finset ℕ), t ⊆ Finset.range L.length →
      cs.length + t.card = L.length →
      ∃ ps : List ℕ, ps.length = cs.length ∧ ps.Nodup ∧
        (∀ i ∈ ps, i < L.length ∧ i ∉ t) ∧
        (runDraws L cs t).1 = ps.map (fun i => L.get? i) := by
  intro cs
  induction cs with
  | nil => intro t _ _; exact ⟨[], rfl, List.nodup_nil, by simp, rfl⟩
  | cons c cs ih =>
      intro t hsub hcard
      have hex : ∃ i, i < L.length ∧ i ∉ t := by
        by_contra hno
        push_neg at hno
        have hsub2 : Finset.range L.length ⊆ t := by
          intro i hi; exact hno i (Finset.mem_range.mp hi)
        have hle := Finset.card_le_card hsub2
        rw [Finset.card_range] at hle
        simp only [List.length_cons] at hcard
        omega
      obtain ⟨p, hp, hpt, heq⟩ := getNext_draw c t L hnd hex
      have hsub' : insert p t ⊆ Finset.range L.length := by
        intro x hx
        rcases Finset.mem_insert.mp hx with rfl | hx'
        · exact Finset.mem_range.mpr hp
        · exact hsub hx'
      have hcard' : cs.length + (insert p t).card = L.length := by
        rw [Finset.card_insert_of_not_mem hpt]
        simp only [List.length_cons] at hcard
        omega
      obtain ⟨ps, hpl, hnodup, hmem, hsel⟩ := ih (insert p t) hsub' hcard'
      refine ⟨p :: ps, by simp [hpl], ?_, ?_, ?_⟩
      · refine List.nodup_cons.mpr ⟨?_, hnodup⟩
        intro hin
        exact (hmem p hin).2 (Finset.mem_insert_self p t)
      · intro i hi
        rcases List.mem_cons.mp hi with rfl | hi'
        · exact ⟨hp, hpt⟩
        · obtain ⟨h1, h2⟩ := hmem i hi'
          exact ⟨h1, fun hc => h2 (Finset.mem_insert_of_mem hc)⟩
      · simp only [runDraws, heq, List.map_cons]
        exact congrArg (List.cons (L.get? p)) hsel

theorem map_get?_range {α : Type} :
    ∀ L : List α, (List.range L.length).map (fun i => L.get? i) = L.map some := by
  intro L
  induction L with
  | nil => simp
  | cons a as ih =>
      rw [List.length_cons, List.range_succ_eq_map, List.map_cons, List.map_map]
      exact congrArg (List.cons (some a)) ih

/-! ### Claim theorems for the selection routine -/

/-- C1: for every recipient and every non-empty duplicate-free candidate
list `L` of size `n` presented unchanged on successive draws from a fresh
tracking state, the `n` selections are exactly the items of `L`, each once,
in some order, whatever the random draws; and the very next selection may
repeat an earlier one, as the concrete `[A, B, C]` run shows (fourth
selection equals the first).  Elements are assumed pairwise distinct, which
models JavaScript object references being distinct. -/
theorem claim1_nonrepeating_cycle :
    (∀ (α : Type) [inst : DecidableEq α] (L : List α) (cs : List ℕ),
        L ≠ [] → L.Nodup → cs.length = L.length →
        (runDraws L cs ∅).1.Perm (L.map some)) ∧
    (runDraws [10, 20, 30] [0, 0, 0, 0] (∅ : Finset ℕ)).1
      = [some 10, some 20, some 30, some 10] := by
  constructor
  · intro α inst L cs _ hnd hlen
    obtain ⟨ps, hpl, hnodup, hmem, hsel⟩ :=
      runDraws_cycle L hnd cs ∅ (by simp) (by simp [hlen])
    rw [hsel, ← map_get?_range L]
    refine List.Perm.map _ ?_
    have hsubset : ps ⊆ List.range L.length :=
      fun i hi => List.mem_range.mpr (hmem i hi).1
    refine (hnodup.subperm hsubset).perm_of_length_le ?_
    rw [List.length_range, hpl, hlen]
  · decide

theorem claim1_witness :
    (runDraws [10, 20, 30] [0, 0, 0] (∅ : Finset ℕ)).1.Perm
      ([10, 20, 30].map some) :=
  claim1_nonrepeating_cycle.1 ℕ [10, 20, 30] [0, 0, 0] (by decide) (by decide) rfl

/-- C2 (amended): a draw with a non-empty unseen set records the selected
item's position into the tracking set; the exhaustion draw instead clears
the tracking set, selects uniformly from the full list, and returns without
recording anything, leaving the tracking set empty. -/
theorem claim2_draw_recording :
    (∀ (α : Type) [inst : DecidableEq α] (choice : ℕ) (t : Finset ℕ) (L : List α),
        (∀ i, i < L.length → i ∈ t) →
        getNextUnsentMedia choice t L = (L.get? (choice % L.length), ∅)) ∧
    (∀ (α : Type) [inst : DecidableEq α] (choice : ℕ) (t : Finset ℕ) (L : List α),
        L.Nodup → (∃ i, i < L.length ∧ i ∉ t) →
        ∃ p, p < L.length ∧ p ∉ t ∧
          getNextUnsentMedia choice t L = (L.get? p, insert p t)) := by
  constructor
  · intro α inst choice t L hall
    have hnil : dropIdxWhen (fun i => decide (i ∈ t)) 0 L = [] := by
      rw [dropIdxWhen_eq_nil_iff]
      intro i hi
      rw [Nat.zero_add]
      simpa using hall i hi
    simp only [getNextUnsentMedia]
    rw [dif_pos (by rw [hnil]; rfl)]
  · intro α inst choice t L hnd hex
    exact getNext_draw choice t L hnd hex

theorem claim2_witness :
    getNextUnsentMedia 0 ({0} : Finset ℕ) [(10 : ℕ)] = (some 10, ∅) := by
  have h := claim2_draw_recording.1 ℕ 0 ({0} : Finset ℕ) [(10 : ℕ)]
    (by
      intro i hi
      simp only [List.length_singleton] at hi
      have h0 : i = 0 := by omega
      simp [h0])
  simpa using h

/-- C2 counterexample: with pool `[10]` and the single position `0` already
delivered, the exhaustion draw selects item `10` (position `0`) but leaves
the tracking set empty instead of recording position `0` into it. -/
theorem claim2_counterexample :
    (getNextUnsentMedia 0 ({0} : Finset ℕ) [(10 : ℕ)]).1 = some 10 ∧
    (getNextUnsentMedia 0 ({0} : Finset ℕ) [(10 : ℕ)]).2 = ∅ := by
  decide

/-- C10: invoked on an empty candidate list, `getNextUnsentMedia` clears
the chat's tracking state and returns `undefined` (modelled `none`) rather
than signalling an error; and the scheduler tick never reaches that branch
because it only requests a selection when the resolved list is non-empty. -/
theorem claim10_empty_list :
    (∀ (choice : ℕ) (t : Finset ℕ),
        getNextUnsentMedia choice t ([] : List MediaEntry) = (none, ∅)) ∧
    (∀ (choice : ℕ) (c : String) (mt : MediaType) (s : BotState),
        resolveMedia mt s.videos s.images = [] →
        onTick choice c mt s = (s, none)) := by
  constructor
  · intro choice t
    simp [getNextUnsentMedia, dropIdxWhen]
  · intro choice c mt s hres
    simp [onTick, hres]

theorem claim10_witness :
    onTick 0 "c" MediaType.videos initState = (initState, none) :=
  claim10_empty_list.2 0 "c" MediaType.videos initState rfl

/-! ### Claim theorems for pool mutation and persistence -/

/-- C8: adding a media entry whose external reference already exists in the
pool is rejected with a duplicate report and leaves the state untouched;
adding an entry with a new reference appends it at the end of the pool and
persists the pool.  Both the video and the photo handler behave this way. -/
theorem claim8_duplicate_add :
    ∀ (s : BotState) (mid cap : String) (now : ℕ),
      ((∃ v ∈ s.videos, v.id = mid) →
        addVideoOp mid cap now s = (s, AddReply.duplicate)) ∧
      ((∀ v ∈ s.videos, v.id ≠ mid) →
        (addVideoOp mid cap now s).1.videos
            = s.videos ++ [⟨mid, MediaKind.video, cap, now⟩] ∧
          (addVideoOp mid cap now s).1.videosDisk
            = s.videos ++ [⟨mid, MediaKind.video, cap, now⟩] ∧
          (addVideoOp mid cap now s).2 = AddReply.ok) ∧
      ((∃ v ∈ s.images, v.id = mid) →
        addImageOp mid cap now s = (s, AddReply.duplicate)) ∧
      ((∀ v ∈ s.images, v.id ≠ mid) →
        (addImageOp mid cap now s).1.images
            = s.images ++ [⟨mid, MediaKind.image, cap, now⟩] ∧
          (addImageOp mid cap now s).1.imagesDisk
            = s.images ++ [⟨mid, MediaKind.image, cap, now⟩] ∧
          (addImageOp mid cap now s).2 = AddReply.ok) := by
  intro s mid cap now
  refine ⟨fun hdup => ?_, fun hnew => ?_, fun hdup => ?_, fun hnew => ?_⟩
  · have hc : (s.videos.any fun v => decide (v.id = mid)) = true := by
      rw [List.any_eq_true]
      obtain ⟨v, hv, hid⟩ := hdup
      exact ⟨v, hv, by simpa using hid⟩
    simp [addVideoOp, hc]
  · have hc : (s.videos.any fun v => decide (v.id = mid)) = false := by
      simp only [List.any_eq_false, decide_eq_true_eq]
      exact hnew
    simp [addVideoOp, hc]
  · have hc : (s.images.any fun v => decide (v.id = mid)) = true := by
      rw [List.any_eq_true]
      obtain ⟨v, hv, hid⟩ := hdup
      exact ⟨v, hv, by simpa using hid⟩
    simp [addImageOp, hc]
  · have hc : (s.images.any fun v => decide (v.id = mid)) = false := by
      simp only [List.any_eq_false, decide_eq_true_eq]
      exact hnew
    simp [addImageOp, hc]

theorem claim8_witness :
    addVideoOp "a" "y" 1 (addVideoOp "a" "x" 0 initState).1
      = ((addVideoOp "a" "x" 0 initState).1, AddReply.duplicate) :=
  (claim8_duplicate_add (addVideoOp "a" "x" 0 initState).1 "a" "y" 1).1 (by decide)

/-- C5: `/stop` with an in-memory timer cancels it, removes the schedule
entry (persisting the removal) and clears the chat's tracking state; with
only a persisted entry it still stops, deleting the persisted entry and the
tracking state while leaving the timer structures untouched; with neither,
it reports nothing-to-cancel and changes nothing. -/
theorem claim5_cancel_schedule :
    ∀ (s : BotState) (c : String),
      (∀ j, lookupA s.schedules c = some j →
        (stopCommand c s).2 = StopReply.stopped ∧
        j ∈ (stopCommand c s).1.cancelled ∧
        lookupA (stopCommand c s).1.schedules c = none ∧
        lookupA (stopCommand c s).1.scheduleData c = none ∧
        (stopCommand c s).1.schedulesDisk = (stopCommand c s).1.scheduleData ∧
        lookupA (stopCommand c s).1.tracker c = none) ∧
      (lookupA s.schedules c = none → ∀ e, lookupA s.scheduleData c = some e →
        (stopCommand c s).2 = StopReply.stopped ∧
        lookupA (stopCommand c s).1.scheduleData c = none ∧
        (stopCommand c s).1.schedulesDisk = (stopCommand c s).1.scheduleData ∧
        lookupA (stopCommand c s).1.tracker c = none ∧
        (stopCommand c s).1.schedules = s.schedules ∧
        (stopCommand c s).1.jobs = s.jobs ∧
        (stopCommand c s).1.cancelled = s.cancelled) ∧
      (lookupA s.schedules c = none → lookupA s.scheduleData c = none →
        stopCommand c s = (s, StopReply.nothingToCancel)) := by
  intro s c
  refine ⟨fun j hj => ?_, fun h1 e h2 => ?_, fun h1 h2 => ?_⟩
  · simp [stopCommand, hj, lookupA_eraseA_self]
  · simp [stopCommand, h1, h2, lookupA_eraseA_self]
  · simp [stopCommand, h1, h2]

theorem claim5_witness :
    (stopCommand "chat1"
        (createScheduledJob "chat1" 30 MediaType.videos 0 initState)).2
        = StopReply.stopped ∧
      lookupA (stopCommand "chat1"
        (createScheduledJob "chat1" 30 MediaType.videos 0 initState)).1.scheduleData
        "chat1" = none := by
  have h := (claim5_cancel_schedule
    (createScheduledJob "chat1" 30 MediaType.videos 0 initState) "chat1").1 0
    (by decide)
  exact ⟨h.1, h.2.2.2.1⟩

/-- C9: every mutating operation on a media pool or on the schedule
registry leaves the durable snapshot equal to the in-memory collection, so
the two never diverge between operations. -/
theorem claim9_persist_sync :
    ∀ s : BotState, SyncInv s →
      (∀ vid cap now, SyncInv (addVideoOp vid cap now s).1) ∧
      (∀ pid cap now, SyncInv (addImageOp pid cap now s).1) ∧
      (∀ i, SyncInv (removeAtVideosOp i s).1) ∧
      (∀ i, SyncInv (removeAtImagesOp i s).1) ∧
      (∀ ids, SyncInv (removeManyVideosOp ids s).1) ∧
      (∀ ids, SyncInv (removeManyImagesOp ids s).1) ∧
      (∀ c iv mt now, SyncInv (createScheduledJob c iv mt now s)) ∧
      (∀ c, SyncInv (stopCommand c s).1) := by
  intro s hs
  obtain ⟨h1, h2, h3⟩ := hs
  refine ⟨?_, ?_, ?_, ?_, ?_, ?_, ?_, ?_⟩
  · intro vid cap now
    by_cases hc : (s.videos.any fun v => decide (v.id = vid)) = true
    · simp [addVideoOp, hc, SyncInv, h1, h2, h3]
    · simp only [Bool.not_eq_true] at hc
      simp [addVideoOp, hc, SyncInv, h1, h2, h3]
  · intro pid cap now
    by_cases hc : (s.images.any fun v => decide (v.id = pid)) = true
    · simp [addImageOp, hc, SyncInv, h1, h2, h3]
    · simp only [Bool.not_eq_true] at hc
      simp [addImageOp, hc, SyncInv, h1, h2, h3]
  · intro i
    by_cases hi : i < s.videos.length
    · simp [removeAtVideosOp, hi, SyncInv, h1, h2, h3]
    · simp [removeAtVideosOp, hi, SyncInv, h1, h2, h3]
  · intro i
    by_cases hi : i < s.images.length
    · simp [removeAtImagesOp, hi, SyncInv, h1, h2, h3]
    · simp [removeAtImagesOp, hi, SyncInv, h1, h2, h3]
  · intro ids
    cases hrm : removeManyList ids s.videos with
    | none => simp [removeManyVideosOp, hrm, SyncInv, h1, h2, h3]
    | some r => simp [removeManyVideosOp, hrm, SyncInv, h1, h2, h3]
  · intro ids
    cases hrm : removeManyList ids s.images with
    | none => simp [removeManyImagesOp, hrm, SyncInv, h1, h2, h3]
    | some r => simp [removeManyImagesOp, hrm, SyncInv, h1, h2, h3]
  · intro c iv mt now
    cases hl : lookupA s.schedules c with
    | none => simp [createScheduledJob, hl, SyncInv, h1, h2, h3]
    | some j => simp [createScheduledJob, hl, SyncInv, h1, h2, h3]
  · intro c
    cases hl : lookupA s.schedules c with
    | some j => simp [stopCommand, hl, SyncInv, h1, h2, h3]
    | none =>
        cases hd : lookupA s.scheduleData c with
        | some e => simp [stopCommand, hl, hd, SyncInv, h1, h2, h3]
        | none => simp [stopCommand, hl, hd, SyncInv, h1, h2, h3]

theorem claim9_witness :
    SyncInv (addVideoOp "a" "c" 0 initState).1 :=
  (claim9_persist_sync initState ⟨rfl, rfl, rfl⟩).1 "a" "c" 0

/-! ### Timer bookkeeping lemmas -/

theorem mem_activeFor {s : BotState} {c : String} {j : ℕ} :
    j ∈ activeFor s c ↔ ∃ jb, (j, jb) ∈ s.jobs ∧ jb.chatId = c ∧ j ∉ s.cancelled := by
  unfold activeFor
  simp only [List.mem_map, List.mem_filter]
  constructor
  · rintro ⟨⟨j', jb⟩, ⟨hmem, hcond⟩, rfl⟩
    simp only [decide_eq_true_eq] at hcond
    exact ⟨jb, hmem, hcond.1, hcond.2⟩
  · rintro ⟨jb, hmem, hchat, hnc⟩
    exact ⟨(j, jb), ⟨hmem, by simp [hchat, hnc]⟩, rfl⟩

theorem create_eq_none (s : BotState) (c : String) (iv : ℕ) (mt : MediaType)
    (now : ℕ) (h : lookupA s.schedules c = none) :
    createScheduledJob c iv mt now s =
      { s with
          jobs := (s.nextId, ⟨c, iv, mt⟩) :: s.jobs
          nextId := s.nextId + 1
          schedules := insertA s.schedules c s.nextId
          scheduleData := insertA s.scheduleData c ⟨iv, mt, now⟩
          schedulesDisk := insertA s.scheduleData c ⟨iv, mt, now⟩ } := by
  simp [createScheduledJob, h]

theorem create_eq_some (s : BotState) (c : String) (iv : ℕ) (mt : MediaType)
    (now : ℕ) (j0 : ℕ) (h : lookupA s.schedules c = some j0) :
    createScheduledJob c iv mt now s =
      { s with
          cancelled := j0 :: s.cancelled
          jobs := (s.nextId, ⟨c, iv, mt⟩) :: s.jobs
          nextId := s.nextId + 1
          schedules := insertA s.schedules c s.nextId
          scheduleData := insertA s.scheduleData c ⟨iv, mt, now⟩
          schedulesDisk := insertA s.scheduleData c ⟨iv, mt, now⟩ } := by
  simp [createScheduledJob, h]

/-- Effect of arming a schedule in a well-formed state: the freshly created
timer is the only live one for the chat, it carries the requested
configuration, and well-formedness is preserved. -/
theorem createScheduledJob_active (s : BotState) (c : String) (iv : ℕ)
    (mt : MediaType) (now : ℕ) (hwf : WF s) (htr : TrackedInv s c) :
    activeFor (createScheduledJob c iv mt now s) c = [s.nextId] ∧
    lookupA (createScheduledJob c iv mt now s).jobs s.nextId = some ⟨c, iv, mt⟩ ∧
    WF (createScheduledJob c iv mt now s) ∧
    TrackedInv (createScheduledJob c iv mt now s) c ∧
    (createScheduledJob c iv mt now s).nextId = s.nextId + 1 := by
  obtain ⟨hwf1, hwf2, hwf3⟩ := hwf
  cases hl : lookupA s.schedules c with
  | none =>
      rw [create_eq_none s c iv mt now hl]
      have hhead : s.nextId ∉ s.cancelled := fun hmem =>
        absurd (hwf2 _ hmem) (lt_irrefl _)
      have htail : ∀ p ∈ s.jobs,
          ¬(decide (p.2.chatId = c ∧ p.1 ∉ s.cancelled) = true) := by
        intro p hp hq
        simp only [decide_eq_true_eq] at hq
        have hact : p.1 ∈ activeFor s c :=
          mem_activeFor.mpr ⟨p.2, by simpa using hp, hq.1, hq.2⟩
        have := htr p.1 hact
        rw [hl] at this
        exact Option.noConfusion this
      have hact : activeFor
          ({ s with
              jobs := (s.nextId, (⟨c, iv, mt⟩ : JobSpec)) :: s.jobs
              nextId := s.nextId + 1
              schedules := insertA s.schedules c s.nextId
              scheduleData := insertA s.scheduleData c ⟨iv, mt, now⟩
              schedulesDisk := insertA s.scheduleData c ⟨iv, mt, now⟩ } : BotState) c
          = [s.nextId] := by
        unfold activeFor
        rw [List.filter_cons_of_pos (by simp [hhead]),
          List.filter_eq_nil_iff.mpr htail]
        rfl
      refine ⟨hact, by simp [lookupA], ⟨?_, ?_, ?_⟩, ?_, rfl⟩
      · intro p hp
        rcases List.mem_cons.mp hp with rfl | hp'
        · exact Nat.lt_succ_self _
        · exact Nat.lt_succ_of_lt (hwf1 p hp')
      · intro j hj
        exact Nat.lt_succ_of_lt (hwf2 j hj)
      · intro c' j hj
        by_cases hc : c' = c
        · subst hc
          rw [lookupA_insertA_self] at hj
          cases hj
          exact Nat.lt_succ_self _
        · rw [lookupA_insertA_ne _ _ hc] at hj
          exact Nat.lt_succ_of_lt (hwf3 c' j hj)
      · intro j hj
        rw [hact] at hj
        rcases List.mem_singleton.mp hj with rfl
        exact lookupA_insertA_self _ _ _
  | some j0 =>
      rw [create_eq_some s c iv mt now j0 hl]
      have hj0lt : j0 < s.nextId := hwf3 c j0 hl
      have hhead : s.nextId ∉ j0 :: s.cancelled := by
        intro hmem
        rcases List.mem_cons.mp hmem with heq | hmem'
        · omega
        · exact absurd (hwf2 _ hmem') (lt_irrefl _)
      have htail : ∀ p ∈ s.jobs,
          ¬(decide (p.2.chatId = c ∧ p.1 ∉ j0 :: s.cancelled) = true) := by
        intro p hp hq
        simp only [decide_eq_true_eq] at hq
        have hnc : p.1 ∉ s.cancelled := fun hc =>
          hq.2 (List.mem_cons_of_mem _ hc)
        have hact : p.1 ∈ activeFor s c :=
          mem_activeFor.mpr ⟨p.2, by simpa using hp, hq.1, hnc⟩
        have heq := htr p.1 hact
        rw [hl] at heq
        have : p.1 = j0 := (Option.some.injEq _ _ ▸ heq).symm
        exact hq.2 (this ▸ List.mem_cons_self _ _)
      have hact : activeFor
          ({ s with
              cancelled := j0 :: s.cancelled
              jobs := (s.nextId, (⟨c, iv, mt⟩ : JobSpec)) :: s.jobs
              nextId := s.nextId + 1
              schedules := insertA s.schedules c s.nextId
              scheduleData := insertA s.scheduleData c ⟨iv, mt, now⟩
              schedulesDisk := insertA s.scheduleData c ⟨iv, mt, now⟩ } : BotState) c
          = [s.nextId] := by
        unfold activeFor
        rw [List.filter_cons_of_pos (by simp [hhead]),
          List.filter_eq_nil_iff.mpr htail]
        rfl
      refine ⟨hact, by simp [lookupA], ⟨?_, ?_, ?_⟩, ?_, rfl⟩
      · intro p hp
        rcases List.mem_cons.mp hp with rfl | hp'
        · exact Nat.lt_succ_self _
        · exact Nat.lt_succ_of_lt (hwf1 p hp')
      · intro j hj
        rcases List.mem_cons.mp hj with rfl | hj'
        · exact Nat.lt_succ_of_lt hj0lt
        · exact Nat.lt_succ_of_lt (hwf2 j hj')
      · intro c' j hj
        by_cases hc : c' = c
        · subst hc
          rw [lookupA_insertA_self] at hj
          cases hj
          exact Nat.lt_succ_self _
        · rw [lookupA_insertA_ne _ _ hc] at hj
          exact Nat.lt_succ_of_lt (hwf3 c' j hj)
      · intro j hj
        rw [hact] at hj
        rcases List.mem_singleton.mp hj with rfl
        exact lookupA_insertA_self _ _ _

/-! ### Claim theorems for the job scheduler -/

/-- C4: arming a schedule twice for the same recipient leaves exactly one
live timer for it, configured by the second call (interval 10, videos);
the first call's timer has been cancelled. -/
theorem claim4_replace_schedule :
    ∀ (s : BotState) (t1 t2 : ℕ), WF s → TrackedInv s "chat1" →
      ∃ j,
        activeFor (createScheduledJob "chat1" 10 MediaType.videos t2
          (createScheduledJob "chat1" 30 MediaType.images t1 s)) "chat1" = [j] ∧
        lookupA (createScheduledJob "chat1" 10 MediaType.videos t2
          (createScheduledJob "chat1" 30 MediaType.images t1 s)).jobs j
          = some ⟨"chat1", 10, MediaType.videos⟩ := by
  intro s t1 t2 hwf htr
  obtain ⟨_, _, hwf1, htr1, _⟩ :=
    createScheduledJob_active s "chat1" 30 MediaType.images t1 hwf htr
  obtain ⟨hact2, hjob2, _, _, _⟩ :=
    createScheduledJob_active (createScheduledJob "chat1" 30 MediaType.images t1 s)
      "chat1" 10 MediaType.videos t2 hwf1 htr1
  exact ⟨_, hact2, hjob2⟩

theorem claim4_witness :
    ∃ j,
      activeFor (createScheduledJob "chat1" 10 MediaType.videos 1
        (createScheduledJob "chat1" 30 MediaType.images 0 initState)) "chat1" = [j] ∧
      lookupA (createScheduledJob "chat1" 10 MediaType.videos 1
        (createScheduledJob "chat1" 30 MediaType.images 0 initState)).jobs j
        = some ⟨"chat1", 10, MediaType.videos⟩ :=
  claim4_replace_schedule initState 0 1
    ⟨by simp [initState], by simp [initState],
      by intro c j h; simp [initState, lookupA] at h⟩
    (by intro j h; simp [activeFor, initState] at h)

theorem activeFor_stop_nil (s : BotState) (c : String) (htr : TrackedInv s c) :
    activeFor (stopCommand c s).1 c = [] := by
  cases hl : lookupA s.schedules c with
  | some j =>
      simp only [stopCommand, hl]
      unfold activeFor
      rw [List.filter_eq_nil_iff.mpr ?_]
      · rfl
      · intro p hp hq
        simp only [decide_eq_true_eq] at hq
        have hnc : p.1 ∉ s.cancelled := fun hc =>
          hq.2 (List.mem_cons_of_mem _ hc)
        have hact : p.1 ∈ activeFor s c :=
          mem_activeFor.mpr ⟨p.2, by simpa using hp, hq.1, hnc⟩
        have heq := htr p.1 hact
        rw [hl] at heq
        have : p.1 = j := (Option.some.injEq _ _ ▸ heq).symm
        exact hq.2 (this ▸ List.mem_cons_self _ _)
  | none =>
      have hnil : activeFor s c = [] := by
        unfold activeFor
        rw [List.filter_eq_nil_iff.mpr ?_]
        · rfl
        · intro p hp hq
          simp only [decide_eq_true_eq] at hq
          have hact : p.1 ∈ activeFor s c :=
            mem_activeFor.mpr ⟨p.2, by simpa using hp, hq.1, hq.2⟩
          have heq := htr p.1 hact
          rw [hl] at heq
          exact Option.noConfusion heq
      cases hd : lookupA s.scheduleData c with
      | some e =>
          simp only [stopCommand, hl, hd]
          simpa [activeFor] using hnil
      | none =>
          simp only [stopCommand, hl, hd]
          exact hnil

theorem runPeriod_of_no_active (choice : ℕ) (c : String) (s : BotState)
    (h : activeFor s c = []) : runPeriod choice c s = (s, []) := by
  simp [runPeriod, h]

theorem runPeriods_of_no_active (k choice : ℕ) (c : String) (s : BotState)
    (h : activeFor s c = []) : runPeriods k choice c s = (s, []) := by
  induction k with
  | zero => rfl
  | succ k ih =>
      simp [runPeriods, runPeriod_of_no_active choice c s h, ih]

/-- C6: once `/stop` has succeeded for a recipient, it has no live timer
left, so no tick fires and no dispatch happens for it, however many timer
periods elapse afterwards. -/
theorem claim6_no_tick_after_cancel :
    ∀ (s : BotState) (c : String), TrackedInv s c →
      activeFor (stopCommand c s).1 c = [] ∧
      ∀ k choice : ℕ, (runPeriods k choice c (stopCommand c s).1).2 = [] := by
  intro s c htr
  have h := activeFor_stop_nil s c htr
  exact ⟨h, fun k choice => by rw [runPeriods_of_no_active k choice c _ h]⟩

theorem claim6_witness :
    activeFor (stopCommand "chat1"
        (createScheduledJob "chat1" 5 MediaType.mix 0 initState)).1 "chat1" = [] ∧
      (runPeriods 3 0 "chat1" (stopCommand "chat1"
        (createScheduledJob "chat1" 5 MediaType.mix 0 initState)).1).2 = [] := by
  have h := claim6_no_tick_after_cancel
    (createScheduledJob "chat1" 5 MediaType.mix 0 initState) "chat1"
    (by
      intro j hj
      have hone : activeFor (createScheduledJob "chat1" 5 MediaType.mix 0 initState)
          "chat1" = [0] := by decide
      rw [hone] at hj
      rcases List.mem_singleton.mp hj with rfl
      decide)
  exact ⟨h.1, h.2 3 0⟩

/-! ### Multi-deletion lemmas -/

theorem dropIdxWhen_congr {α : Type} (p q : ℕ → Bool) (h : ∀ j, p j = q j) :
    ∀ (k : ℕ) (l : List α), dropIdxWhen p k l = dropIdxWhen q k l := by
  intro k l
  induction l generalizing k with
  | nil => rfl
  | cons a as ih => rw [dropIdxWhen, dropIdxWhen, h k, ih (k + 1)]

theorem dropIdxWhen_of_all_lt {α : Type} (p : ℕ → Bool) :
    ∀ (l : List α) (k : ℕ), (∀ j, p j = true → j < k) → dropIdxWhen p k l = l := by
  intro l
  induction l with
  | nil => intro k _; rfl
  | cons a as ih =>
      intro k h
      have hpk : p k = false := by
        cases hp : p k
        · rfl
        · exact absurd (h k hp) (lt_irrefl k)
      rw [dropIdxWhen, if_neg (by simp [hpk]), ih (k + 1) (fun j hj => Nat.lt_succ_of_lt (h j hj))]

/-- Erasing position `i` commutes with index filtering: dropping positions
`q` from the list with position `i` spliced out is dropping positions
`q ∪ {i}` from the original list, provided `q` only holds below `i`. -/
theorem eraseIdx_dropIdxWhen {α : Type} :
    ∀ (l : List α) (i k : ℕ) (q : ℕ → Bool), i < l.length →
      (∀ j, q j = true → j < k + i) →
      dropIdxWhen q k (l.eraseIdx i)
        = dropIdxWhen (fun j => q j || decide (j = k + i)) k l := by
  intro l
  induction l with
  | nil => intro i k q hi _; simp at hi
  | cons a as ih =>
      intro i k q hi hq
      cases i with
      | zero =>
          rw [List.eraseIdx_cons_zero]
          rw [dropIdxWhen_of_all_lt q as k
            (by intro j hj; have := hq j hj; omega)]
          rw [dropIdxWhen, if_pos (by simp)]
          refine (dropIdxWhen_of_all_lt _ as (k + 1) ?_).symm
          intro j hj
          simp only [Bool.or_eq_true, decide_eq_true_eq] at hj
          rcases hj with hj | hj
          · have := hq j hj; omega
          · omega
      | succ i' =>
          rw [List.eraseIdx_cons_succ]
          have harith : k + 1 + i' = k + (i' + 1) := by omega
          have hih := ih i' (k + 1) q (Nat.lt_of_succ_lt_succ hi)
            (by intro j hj; have := hq j hj; omega)
          cases hqk : q k with
          | true =>
              rw [dropIdxWhen, if_pos (by simp [hqk]), dropIdxWhen,
                if_pos (by simp [hqk]), hih]
              exact dropIdxWhen_congr _ _ (fun j => by rw [harith]) (k + 1) as
          | false =>
              rw [dropIdxWhen, if_neg (by simp [hqk]), dropIdxWhen,
                if_neg (by simp [hqk]), hih]
              exact congrArg (List.cons a)
                (dropIdxWhen_congr _ _ (fun j => by rw [harith]) (k + 1) as)

theorem foldl_erase_fst {α : Type} :
    ∀ (ids : List ℕ) (pool : List α) (acc : List (Option α)),
      (ids.foldl (fun a2 i => (a2.1.eraseIdx i, a2.2 ++ [a2.1.get? i])) (pool, acc)).1
        = ids.foldl (fun l i => l.eraseIdx i) pool := by
  intro ids
  induction ids with
  | nil => intro pool acc; rfl
  | cons i rest ih => intro pool acc; exact ih _ _

/-- Splicing out a strictly descending list of valid positions leaves
exactly the elements whose position is not listed, in their original
relative order. -/
theorem foldl_eraseIdx_sorted {α : Type} :
    ∀ (ids : List ℕ) (pool : List α), List.Pairwise (fun a b => b < a) ids →
      (∀ i ∈ ids, i < pool.length) →
      ids.foldl (fun l i => l.eraseIdx i) pool
        = dropIdxWhen (fun j => decide (j ∈ ids)) 0 pool := by
  intro ids
  induction ids with
  | nil =>
      intro pool _ _
      exact (dropIdxWhen_of_all_lt _ pool 0 (by intro j hj; simp at hj)).symm
  | cons i rest ih =>
      intro pool hpw hlt
      have hi : i < pool.length := hlt i (List.mem_cons_self i rest)
      have hrest_lt : ∀ j ∈ rest, j < i :=
        fun j hj => (List.pairwise_cons.mp hpw).1 j hj
      have hbound : ∀ j ∈ rest, j < (pool.eraseIdx i).length := by
        intro j hj
        have h1 := hrest_lt j hj
        rw [List.length_eraseIdx]
        simp only [hi, if_true]
        omega
      rw [List.foldl_cons, ih (pool.eraseIdx i) (List.pairwise_cons.mp hpw).2 hbound]
      rw [eraseIdx_dropIdxWhen pool i 0 _ hi
        (by
          intro j hj
          simp only [decide_eq_true_eq] at hj
          have := hrest_lt j hj
          omega)]
      refine dropIdxWhen_congr _ _ (fun j => ?_) 0 pool
      simp only [Nat.zero_add, List.mem_cons]
      by_cases h1 : j = i <;> by_cases h2 : j ∈ rest <;> simp [h1, h2]

theorem sortDesc_strict (l : List ℕ) (h : l.Nodup) :
    List.Pairwise (fun a b => b < a) (sortDesc l) := by
  have hs : List.Pairwise (fun a b : ℕ => b ≤ a) (sortDesc l) :=
    List.sorted_insertionSort _ l
  have hnd : (sortDesc l).Nodup := (List.perm_insertionSort _ l).nodup_iff.mpr h
  exact (List.Pairwise.and hs hnd).imp
    (fun hab => lt_of_le_of_ne hab.1 (Ne.symm hab.2))

/-- Success path of multi-deletion: on a duplicate-free set of in-range
indices, the remaining pool is the positional filter of the original. -/
theorem removeManyList_valid {α : Type} (ids : List ℕ) (pool : List α)
    (hne : ids ≠ []) (hnd : ids.Nodup) (hlt : ∀ i ∈ ids, i < pool.length) :
    ∃ d, removeManyList ids pool
      = some (dropIdxWhen (fun j => decide (j ∈ ids)) 0 pool, d) := by
  have hpool : ¬pool.length = 0 := by
    obtain ⟨i, hi⟩ := List.exists_mem_of_ne_nil ids hne
    have := hlt i hi
    omega
  have hall : (ids.all fun i => decide (i < pool.length)) = true := by
    rw [List.all_eq_true]
    intro i hi
    simpa using hlt i hi
  have hfst : ((sortDesc ids).foldl
      (fun a2 i => (a2.1.eraseIdx i, a2.2 ++ [a2.1.get? i]))
      (pool, ([] : List (Option α)))).1
      = dropIdxWhen (fun j => decide (j ∈ ids)) 0 pool := by
    rw [foldl_erase_fst]
    rw [foldl_eraseIdx_sorted (sortDesc ids) pool (sortDesc_strict ids hnd)
      (fun i hi => hlt i ((List.perm_insertionSort _ ids).mem_iff.mp hi))]
    refine dropIdxWhen_congr _ _ (fun j => ?_) 0 pool
    exact decide_eq_decide.mpr (List.perm_insertionSort (fun a b => b ≤ a) ids).mem_iff
  refine ⟨((sortDesc ids).foldl
      (fun a2 i => (a2.1.eraseIdx i, a2.2 ++ [a2.1.get? i]))
      (pool, ([] : List (Option α)))).2, ?_⟩
  unfold removeManyList
  rw [if_neg hpool, if_pos hall, ← hfst]

/-- C7: the multi-delete command validates every index before mutating
(any out-of-range index leaves the pool untouched and reports failure);
on a valid duplicate-free index set it splices the targets out in
descending order, persists the result, and the surviving entries keep
their original relative order under the re-numbered dense indices — as the
concrete size-5 pool shows, removing positions 1 and 3 leaves the three
other entries in order. -/
theorem claim7_remove_many :
    (∀ (ids : List ℕ) (s : BotState),
        (∃ i ∈ ids, s.videos.length ≤ i) →
        removeManyVideosOp ids s = (s, none)) ∧
    (∀ (ids : List ℕ) (s : BotState), ids ≠ [] → ids.Nodup →
        (∀ i ∈ ids, i < s.videos.length) →
        (removeManyVideosOp ids s).1.videos
            = dropIdxWhen (fun j => decide (j ∈ ids)) 0 s.videos ∧
          (removeManyVideosOp ids s).1.videosDisk
            = dropIdxWhen (fun j => decide (j ∈ ids)) 0 s.videos ∧
          (removeManyVideosOp ids s).2.isSome = true) ∧
    removeManyList [1, 3] [(0 : ℕ), 1, 2, 3, 4]
      = some ([0, 2, 4], [some 3, some 1]) := by
  refine ⟨?_, ?_, by decide⟩
  · rintro ids s ⟨i, hi, hge⟩
    by_cases h0 : s.videos.length = 0
    · simp [removeManyVideosOp, removeManyList, h0]
    · have hall : (ids.all fun i => decide (i < s.videos.length)) = false := by
        refine Bool.eq_false_iff.mpr ?_
        intro hcl
        rw [List.all_eq_true] at hcl
        have := hcl i hi
        simp only [decide_eq_true_eq] at this
        omega
      simp [removeManyVideosOp, removeManyList, h0, hall]
  · intro ids s hne hnd hlt
    obtain ⟨d, hd⟩ := removeManyList_valid ids s.videos hne hnd hlt
    simp [removeManyVideosOp, hd]

def samplePool : List MediaEntry :=
  [⟨"a", MediaKind.video, "", 0⟩, ⟨"b", MediaKind.video, "", 0⟩,
   ⟨"c", MediaKind.video, "", 0⟩, ⟨"d", MediaKind.video, "", 0⟩,
   ⟨"e", MediaKind.video, "", 0⟩]

def sampleState : BotState :=
  { initState with videos := samplePool, videosDisk := samplePool }

theorem claim7_witness :
    (removeManyVideosOp [1, 3] sampleState).1.videos
        = dropIdxWhen (fun j => decide (j ∈ [1, 3])) 0 sampleState.videos ∧
      (removeManyVideosOp [1, 3] sampleState).1.videosDisk
        = dropIdxWhen (fun j => decide (j ∈ [1, 3])) 0 sampleState.videos ∧
      (removeManyVideosOp [1, 3] sampleState).2.isSome = true :=
  claim7_remove_many.2.1 [1, 3] sampleState (by decide) (by decide) (by decide)

/-! ### Startup re-arm lemmas -/

theorem lookupA_isSome_of_mem_keys :
    ∀ (l : List (κ × β)) (c : κ), c ∈ l.map Prod.fst → (lookupA l c).isSome := by
  intro l
  induction l with
  | nil => intro c hc; simp at hc
  | cons p t ih =>
      intro c hc
      by_cases hp : p.1 = c
      · simp [lookupA, hp]
      · rw [List.map_cons] at hc
        rcases List.mem_cons.mp hc with heq | hmem
        · exact absurd heq.symm hp
        · simpa [lookupA, hp] using ih c hmem

theorem create_none_fields (s : BotState) (c : String) (iv : ℕ) (mt : MediaType)
    (now : ℕ) (hl : lookupA s.schedules c = none) :
    (createScheduledJob c iv mt now s).nextId = s.nextId + 1 ∧
    (createScheduledJob c iv mt now s).cancelled = s.cancelled ∧
    (createScheduledJob c iv mt now s).jobs = (s.nextId, ⟨c, iv, mt⟩) :: s.jobs ∧
    (createScheduledJob c iv mt now s).schedules = insertA s.schedules c s.nextId ∧
    (createScheduledJob c iv mt now s).scheduleData
      = insertA s.scheduleData c ⟨iv, mt, now⟩ := by
  rw [create_eq_none s c iv mt now hl]
  exact ⟨rfl, rfl, rfl, rfl, rfl⟩

theorem create_WF_of_none (s : BotState) (c : String) (iv : ℕ) (mt : MediaType)
    (now : ℕ) (hl : lookupA s.schedules c = none) (hwf : WF s) :
    WF (createScheduledJob c iv mt now s) := by
  obtain ⟨hwf1, hwf2, hwf3⟩ := hwf
  rw [create_eq_none s c iv mt now hl]
  refine ⟨?_, ?_, ?_⟩
  · intro p hp
    rcases List.mem_cons.mp hp with rfl | hp'
    · exact Nat.lt_succ_self _
    · exact Nat.lt_succ_of_lt (hwf1 p hp')
  · intro j hj
    exact Nat.lt_succ_of_lt (hwf2 j hj)
  · intro c' j hj
    by_cases hc : c' = c
    · subst hc
      rw [lookupA_insertA_self] at hj
      cases hj
      exact Nat.lt_succ_self _
    · rw [lookupA_insertA_ne _ _ hc] at hj
      exact Nat.lt_succ_of_lt (hwf3 c' j hj)

/-- Effect of the startup loop body folded over a list of persisted entries
with pairwise distinct keys, starting from a state holding no timer for any
of those keys: each processed entry gets its registry value rewritten with
the fold's timestamp and a live timer armed with its interval and selector,
while every other key and all pre-existing jobs are untouched. -/
theorem rearm_fold (now : ℕ) :
    ∀ (entries : List (String × ScheduleEntry)) (s f : BotState),
      f = entries.foldl (fun s2 ce =>
        createScheduledJob ce.1 ce.2.interval ce.2.mediaType now s2) s →
      (entries.map Prod.fst).Nodup → WF s →
      (∀ c ∈ entries.map Prod.fst, lookupA s.schedules c = none) →
      WF f ∧ s.nextId ≤ f.nextId ∧ f.cancelled = s.cancelled ∧
      (∀ j, j < s.nextId → lookupA f.jobs j = lookupA s.jobs j) ∧
      (∀ c, c ∉ entries.map Prod.fst →
        lookupA f.schedules c = lookupA s.schedules c ∧
        lookupA f.scheduleData c = lookupA s.scheduleData c) ∧
      (∀ c e, lookupA entries c = some e →
        lookupA f.scheduleData c = some ⟨e.interval, e.mediaType, now⟩ ∧
        ∃ j, lookupA f.schedules c = some j ∧ j ∉ f.cancelled ∧
          lookupA f.jobs j = some ⟨c, e.interval, e.mediaType⟩) := by
  intro entries
  induction entries with
  | nil =>
      intro s f hf _ hwf _
      subst hf
      refine ⟨hwf, le_rfl, rfl, fun j _ => rfl, fun c _ => ⟨rfl, rfl⟩, ?_⟩
      intro c e he
      exact Option.noConfusion he
  | cons ce rest ih =>
      intro s f hf hnd hwf hnone
      rw [List.foldl_cons] at hf
      rw [List.map_cons] at hnd
      have hkey : ce.1 ∉ rest.map Prod.fst := (List.nodup_cons.mp hnd).1
      have hndr : (rest.map Prod.fst).Nodup := (List.nodup_cons.mp hnd).2
      have hl0 : lookupA s.schedules ce.1 = none :=
        hnone ce.1 (by simp)
      obtain ⟨hn1, hn2, hn3, hn4, hn5⟩ :=
        create_none_fields s ce.1 ce.2.interval ce.2.mediaType now hl0
      have hwf' : WF (createScheduledJob ce.1 ce.2.interval ce.2.mediaType now s) :=
        create_WF_of_none s ce.1 ce.2.interval ce.2.mediaType now hl0 hwf
      have hnone' : ∀ c ∈ rest.map Prod.fst,
          lookupA (createScheduledJob ce.1 ce.2.interval ce.2.mediaType now s).schedules c
            = none := by
        intro c hc
        have hne : c ≠ ce.1 := fun heq => hkey (heq ▸ hc)
        rw [hn4, lookupA_insertA_ne _ _ hne]
        exact hnone c (by simp [hc])
      obtain ⟨ihwf, ihle, ihcanc, ihjobs, ihother, ihmain⟩ :=
        ih (createScheduledJob ce.1 ce.2.interval ce.2.mediaType now s) f hf
          hndr hwf' hnone'
      refine ⟨ihwf, ?_, ?_, ?_, ?_, ?_⟩
      · rw [hn1] at ihle; omega
      · rw [ihcanc, hn2]
      · intro j hj
        have hj' : j < (createScheduledJob ce.1 ce.2.interval ce.2.mediaType now s).nextId := by
          rw [hn1]; omega
        rw [ihjobs j hj', hn3]
        have hne : s.nextId ≠ j := by omega
        simp [lookupA, hne]
      · intro c hc
        have hc1 : c ≠ ce.1 := fun heq => hc (by simp [heq])
        have hc2 : c ∉ rest.map Prod.fst := fun hmem => hc (by simp [hmem])
        obtain ⟨ho1, ho2⟩ := ihother c hc2
        constructor
        · rw [ho1, hn4, lookupA_insertA_ne _ _ hc1]
        · rw [ho2, hn5, lookupA_insertA_ne _ _ hc1]
      · intro c e he
        by_cases hc : ce.1 = c
        · subst hc
          have he0 : e = ce.2 := by
            simp [lookupA] at he
            exact he.symm
          subst he0
          obtain ⟨ho1, ho2⟩ := ihother ce.1 hkey
          constructor
          · rw [ho2, hn5, lookupA_insertA_self]
          · refine ⟨s.nextId, ?_, ?_, ?_⟩
            · rw [ho1, hn4, lookupA_insertA_self]
            · rw [ihcanc, hn2]
              intro hmem
              exact absurd (hwf.2.1 _ hmem) (lt_irrefl _)
            · have hlt : s.nextId
                  < (createScheduledJob ce.1 ce.2.interval ce.2.mediaType now s).nextId := by
                rw [hn1]; omega
              rw [ihjobs s.nextId hlt, hn3]
              simp [lookupA]
        · have he' : lookupA rest c = some e := by
            simpa [lookupA, hc] using he
          exact ihmain c e he'

/-- C3 (amended): re-arming timers on process start arms, for every
persisted entry, a timer with the persisted interval and selector, and
leaves every other registry key unchanged — but it re-runs the registry
write of `setSchedule` instead of skipping it, so each processed entry's
`createdAt` is overwritten with the startup time (interval and selector
are rewritten with their stored values). -/
theorem claim3_rearm_registry :
    ∀ (entries : List (String × ScheduleEntry)) (now : ℕ),
      (entries.map Prod.fst).Nodup →
      (∀ c, lookupA (startupRearm entries now).scheduleData c
          = (lookupA entries c).map
              (fun e => ⟨e.interval, e.mediaType, now⟩)) ∧
      (∀ c e, lookupA entries c = some e →
        ∃ j, lookupA (startupRearm entries now).schedules c = some j ∧
          j ∉ (startupRearm entries now).cancelled ∧
          lookupA (startupRearm entries now).jobs j
            = some ⟨c, e.interval, e.mediaType⟩) := by
  intro entries now hnd
  have hwf0 : WF ({ initState with
      scheduleData := entries, schedulesDisk := entries } : BotState) := by
    refine ⟨?_, ?_, ?_⟩
    · intro p hp; simp [initState] at hp
    · intro j hj; simp [initState] at hj
    · intro c j hj; simp [initState, lookupA] at hj
  obtain ⟨_, _, _, _, ihother, ihmain⟩ :=
    rearm_fold now entries
      ({ initState with scheduleData := entries, schedulesDisk := entries })
      (startupRearm entries now) rfl hnd hwf0
      (by intro c _; simp [initState, lookupA])
  constructor
  · intro c
    cases hc : lookupA entries c with
    | some e => simp [(ihmain c e hc).1]
    | none =>
        have hck : c ∉ entries.map Prod.fst := by
          intro hmem
          have := lookupA_isSome_of_mem_keys entries c hmem
          rw [hc] at this
          simp at this
        rw [(ihother c hck).2]
        simpa [initState] using hc
  · intro c e he
    exact (ihmain c e he).2

theorem claim3_witness :
    lookupA (startupRearm [("c", ⟨30, MediaType.images, 5⟩)] 7).scheduleData "c"
      = (lookupA [("c", (⟨30, MediaType.images, 5⟩ : ScheduleEntry))] "c").map
          (fun e => ⟨e.interval, e.mediaType, 7⟩) :=
  (claim3_rearm_registry [("c", ⟨30, MediaType.images, 5⟩)] 7 (by decide)).1 "c"

/-- C3 counterexample: one persisted entry created at time 5; after the
startup re-arm loop runs at time 7 the stored entry's `createdAt` is 7, so
the persisted registry is not left unchanged. -/
theorem claim3_counterexample :
    lookupA (startupRearm [("c", ⟨30, MediaType.images, 5⟩)] 7).scheduleData "c"
        = some ⟨30, MediaType.images, 7⟩ ∧
      (⟨30, MediaType.images, 7⟩ : ScheduleEntry) ≠ ⟨30, MediaType.images, 5⟩ := by
  decide

end Botxx
